import Mathlib

/-!
Verification development for the reactive-lens library
(`src/reactive-lens.ts`, the main `Store`/`Lens` module, and `src/Dannelib.ts`).

The development shallowly embeds the core of the library:

* the pure lens constructors (`lens`, `iso`, `at`, `key`, `def`, `seq`,
  and the two `index` variants),
* the root store's transaction engine (`init`'s closure over
  `s`/`depth`/`pending` together with `notify`, `transact` and `set`),
  modelled as a fuel-indexed interpreter over an explicit state record with
  a ghost event trace recording writes, listener invocations and
  notification passes,
* derived-store construction (`substore`/`via`/`at`/`key`) as record
  transformers, and
* the Dannelib `at` array reference.

JavaScript records are modelled as functions out of `String` (total fields
for `at`, `Option`-valued fields for `key`), `undefined` as `Option.none`,
and JavaScript numbers used as array indices as `Int` where the source can
receive negative indices, `Nat` otherwise.
-/

namespace ReactiveLens

/-- A lens, from the source's `Lens<S, T>` interface:
a pure `get : S → T` together with `set : S → T → S`. -/
structure LensE (S T : Type) where
  get : S → T
  set : S → T → S

/-- Source `lens(get, set)`: wrap a getter/setter pair. -/
def lensE (get : S → T) (set : S → T → S) : LensE S T :=
  ⟨get, set⟩

/-- Source `iso(f, g)`: `get = f`, `set(_, t) = g(t)` ignoring the prior state. -/
def isoE (f : S → T) (g : T → S) : LensE S T :=
  lensE f (fun _ t => g t)

/-- Source `at(k)`: total field access on a record whose keys are always
present; `set` returns a copy with key `k` replaced
(`{...s, [k]: v}`).  Records with total fields are modelled as functions
`String → V`. -/
def atL (k : String) : LensE (String → V) V :=
  lensE (fun s => s k)
        (fun s v => fun j => if j = k then v else s j)

/-- Source `key(k)` (the `Lens.key` of the main module): access to a
possibly-missing key.  `get` reads the key (`none` = the key is absent);
`set` with `undefined` (`none`) returns a copy with the key removed, `set`
with a present value returns a copy with the key added/overwritten.
Records with optional fields are modelled as functions `String → Option V`. -/
def keyL (k : String) : LensE (String → Option V) (Option V) :=
  lensE (fun s => s k)
        (fun s v =>
          match v with
          | none => fun j => if j = k then none else s j
          | some x => fun j => if j = k then some x else s j)

/-- Source `def(missing)`: the isomorphism
`a => a === undefined ? missing : a` / `a => a === missing ? undefined : a`
between "value-or-missing" and "value". -/
def defL [DecidableEq V] (missing : V) : LensE (Option V) V :=
  isoE (fun a => match a with
          | none => missing
          | some x => x)
       (fun a => if a = missing then none else some a)

/-- Source `Lens.seq(lens1, lens2)`: sequential composition,
`get = lens2.get ∘ lens1.get`,
`set(s, u) = lens1.set(s, lens2.set(lens1.get(s), u))`. -/
def seqL (l₁ : LensE S T) (l₂ : LensE T U) : LensE S U :=
  lensE (fun s => l₂.get (l₁.get s))
        (fun s u => l₁.set s (l₂.set (l₁.get s) u))

/-- Source `inplace_rtrim` from the total `index` lens: pop trailing
`undefined` elements off the end of the array (an element is popped exactly
when everything after it was already popped and it is itself `undefined`). -/
def rtrim : List (Option A) → List (Option A)
  | [] => []
  | y :: ys =>
    if (rtrim ys).isEmpty && y.isNone then [] else y :: rtrim ys

/-- Source total `index(position)` lens (`reactive-lens.ts`):
`get` is `xs[position]` (the absence marker when out of range);
`set` in range replaces (or, for `undefined`, removes) the element, out of
range pads with `undefined` and appends for a present value, and the result
is always right-trimmed of trailing `undefined`s.  Array elements of type
`A | undefined` are modelled as `Option A`. -/
def indexT (position : Nat) : LensE (List (Option A)) (Option A) :=
  lensE (fun xs => (xs.get? position).join)
        (fun xs x =>
          if position < xs.length then
            let a := xs.take position
            let z := xs.drop (position + 1)
            match x with
            | none => rtrim (a ++ z)
            | some v => rtrim (a ++ some v :: z)
          else
            match x with
            | none => rtrim xs
            | some v => rtrim (xs ++ List.replicate (position - xs.length) none ++ [some v]))

/-- Source partial `Lens.index(i)` (the main module's variant): `within`
throws `'Out of bounds'` when `i < 0` or `i ≥ xs.length`; this is the
`get` side, returning `xs[i]` in range. -/
def indexPGet (i : Int) (xs : List A) : Except String A :=
  if i < 0 ∨ (xs.length : Int) ≤ i then
    Except.error "Out of bounds"
  else
    match xs.get? i.toNat with
    | some x => Except.ok x
    | none => Except.error "Out of bounds"

/-- Source partial `Lens.index(i)`, `set` side: after the same bounds
check, copy the array and overwrite position `i`. -/
def indexPSet (i : Int) (xs : List A) (x : A) : Except String (List A) :=
  if i < 0 ∨ (xs.length : Int) ≤ i then
    Except.error "Out of bounds"
  else
    Except.ok (xs.set i.toNat x)

/-- A store write through a partial lens, `(t) => this.set(lens.set(this.get(), t))`:
if the lens setter raises, the parent `set` is never reached, so the backing
cell keeps its old value and the failure propagates.  The result pairs the
cell after the operation with the propagated failure, if any. -/
def indexStoreSet (i : Int) (x : A) (cell : List A) : List A × Option String :=
  match indexPSet i cell x with
  | Except.ok ys => (ys, none)
  | Except.error e => (cell, some e)

/-! ## The transaction engine

`Store.init(s0)` closes over the current state `s`, the transaction
`depth`, the `pending` flag and the listener registry.  We embed the
closure state as an explicit record `St`, extended with a ghost `trace` of
events: each committed write, each listener invocation (with the value the
listener observes through `get()` at invocation time), and the start/end
of each notification pass (the execution of `listeners.iter` inside
`notify`).

Code executed against the engine is reified as `Cmd`: `setv` is the root
`set`, `trans` is `transact` (depth++; body; depth--; notify), `note` is
`notify`, `invoke k` is the invocation of a subscribed listener
`() => k(this.get())`, and `pass` is the instrumented listener iteration.
A listener is a function `V → Cmd V`: it reads the current value and then
runs some more code (possibly calling `set` again).  The interpreter `run`
is indexed by fuel, decremented on every step, so that it is structurally
recursive and computable; the source recursion (notify calling transact
calling notify) is reproduced faithfully as long as fuel remains. -/

/-- Ghost events recorded by the engine. -/
inductive Ev (V : Type) where
  | write (v : V)
  | invoke (v : V)
  | passStart
  | passEnd
deriving DecidableEq

/-- The closure state of `Store.init`: current value `s`, transaction
`depth`, `pending` flag, plus the ghost event trace. -/
structure St (V : Type) where
  val : V
  depth : Nat
  pending : Bool
  trace : List (Ev V)
deriving DecidableEq

/-- Code running against the engine (see the section comment). -/
inductive Cmd (V : Type) where
  | skip
  | setv (v : V)
  | seq (c₁ c₂ : Cmd V)
  | trans (c : Cmd V)
  | invoke (k : V → Cmd V)
  | pass (c : Cmd V)
  | note

/-- The listener iteration `listeners.iter(k => k())`: invoke every
subscribed listener in order. -/
def iterCmd (ks : List (V → Cmd V)) : Cmd V :=
  ks.foldr (fun k acc => Cmd.seq (Cmd.invoke k) acc) Cmd.skip

/-- The fuel-indexed interpreter.  `L` is the listener registry.
Mirrors the source: `set` assigns, marks `pending`, calls `notify`;
`transact` increments `depth`, runs the body, decrements `depth`, calls
`notify`; `notify` does nothing unless `depth == 0 && pending`, and
otherwise clears `pending` and runs the listener iteration wrapped in a
fresh `transact`. -/
def run (L : List (V → Cmd V)) : Nat → Cmd V → St V → St V
  | 0, _, st => st
  | fuel + 1, c, st =>
    match c with
    | Cmd.skip => st
    | Cmd.seq c₁ c₂ => run L fuel c₂ (run L fuel c₁ st)
    | Cmd.setv v =>
        run L fuel Cmd.note
          { st with val := v, pending := true, trace := st.trace ++ [Ev.write v] }
    | Cmd.trans c₀ =>
        let st₁ := run L fuel c₀ { st with depth := st.depth + 1 }
        run L fuel Cmd.note { st₁ with depth := st₁.depth - 1 }
    | Cmd.invoke k =>
        run L fuel (k st.val) { st with trace := st.trace ++ [Ev.invoke st.val] }
    | Cmd.pass c₀ =>
        let st₁ := run L fuel c₀ { st with trace := st.trace ++ [Ev.passStart] }
        { st₁ with trace := st₁.trace ++ [Ev.passEnd] }
    | Cmd.note =>
        if st.depth = 0 ∧ st.pending then
          run L fuel (Cmd.trans (Cmd.pass (iterCmd L))) { st with pending := false }
        else st

/-- A batch of sets, `() => { store.set(v₁); ...; store.set(vₙ) }`. -/
def batchCmd (vs : List V) : Cmd V :=
  vs.foldr (fun v acc => Cmd.seq (Cmd.setv v) acc) Cmd.skip

/-- The values observed by listener invocations in a trace. -/
def invokeValues : List (Ev V) → List V
  | [] => []
  | Ev.invoke v :: tr => v :: invokeValues tr
  | _ :: tr => invokeValues tr

/-- A registry of pure logging listeners: each subscribed callback only
reads the value (its invocation is recorded in the trace) and performs no
further store operation. -/
def PureL (L : List (V → Cmd V)) : Prop :=
  ∀ k ∈ L, ∀ v, k v = Cmd.skip

/-- Commands built from `skip`, `set` and sequencing only: the shape of a
listener body that may "call `set` again" (re-entrant writes). -/
def setOnly : Cmd V → Bool
  | Cmd.skip => true
  | Cmd.setv _ => true
  | Cmd.seq c₁ c₂ => setOnly c₁ && setOnly c₂
  | _ => false

/-- A registry of listeners each of which only performs (batched) writes. -/
def SetOnlyL (L : List (V → Cmd V)) : Prop :=
  ∀ k ∈ L, ∀ v, setOnly (k v) = true

/-- Pass bracket events. -/
def isPassEv : Ev V → Bool
  | Ev.passStart => true
  | Ev.passEnd => true
  | _ => false

/-- A trace fragment containing no pass brackets. -/
def noPassB (tr : List (Ev V)) : Bool :=
  tr.all (fun e => !isPassEv e)

/-- Scan a trace keeping the number of notification passes currently in
flight, starting from `n`; the result is `none` as soon as a pass starts
while another is in flight (or a bracket is unbalanced), and otherwise the
number in flight at the end.  `opensFrom 0 tr = some 0` therefore says the
brackets in `tr` are properly matched and never nested: at most one
notification pass is in flight at every moment. -/
def opensFrom : Nat → List (Ev V) → Option Nat
  | n, [] => some n
  | n, Ev.passStart :: tr => if n = 0 then opensFrom 1 tr else none
  | n, Ev.passEnd :: tr => if n = 1 then opensFrom 0 tr else none
  | n, _ :: tr => opensFrom n tr

/-! ## Derived stores over the engine

A store derived from the root by `via(lens)` has
`get = () => lens.get(root.get())` and
`set = t => root.set(lens.set(root.get(), t))`; the root `set` is the
engine's `set`, so a derived-store write runs `Cmd.setv` on the backing
cell. -/

/-- Read a derived store: the lens getter over the backing cell. -/
def storeViaGet (ℓ : LensE S T) (st : St S) : T :=
  ℓ.get st.val

/-- Write a derived store: the root `set` applied to the lens setter's
result, which then runs `notify` against the listener registry `L`. -/
def storeViaSet (ℓ : LensE S T) (L : List (S → Cmd S)) (fuel : Nat)
    (st : St S) (t : T) : St S :=
  run L fuel (Cmd.setv (ℓ.set st.val t)) st

/-- Source `ondiff(k)`: keeps the last observed value and invokes `k(new, old)`
only when the newly observed value differs from it.  Given the initial
remembered value and the sequence of values observed by the underlying `on`
subscription, this returns the `(new, old)` pairs the callback receives. -/
def ondiffRun [DecidableEq V] (old : V) : List V → List (V × V)
  | [] => []
  | v :: vs => if v ≠ old then (v, old) :: ondiffRun v vs else ondiffRun old vs


/-! ## The transaction wrapper under a failing body

The source `transact` is `depth++; m(); depth--; notify()` with no
`try`/`finally`: if the body raises, the decrement and the `notify` call
are skipped and the exception propagates.  We model a fallible body as a
state transformer that also returns an optional raised failure; an
exception does not roll back state, so the state produced so far is kept
alongside the failure. -/

/-- Source `transact(m)` with a fallible body. -/
def transactE (L : List (V → Cmd V)) (fuel : Nat)
    (body : St V → St V × Option String) (st : St V) : St V × Option String :=
  match body { st with depth := st.depth + 1 } with
  | (st₂, some e) => (st₂, some e)
  | (st₂, none) => (run L fuel Cmd.note { st₂ with depth := st₂.depth - 1 }, none)

/-- Source `transaction<A>(m)`: runs `this.transact(() => { a = m() })` and
returns `a`.  If `m` raises, the assignment to `a` never happens and the
failure propagates through `transact` (whose `depth--`/`notify()` are
skipped), so the caller sees the failure and no result. -/
def transactionE (L : List (V → Cmd V)) (fuel : Nat)
    (m : St V → St V × Option String × A) (st : St V) :
    St V × Option String × Option A :=
  match m { st with depth := st.depth + 1 } with
  | (st₂, some e, _) => (st₂, some e, none)
  | (st₂, none, a) => (run L fuel Cmd.note { st₂ with depth := st₂.depth - 1 }, none, some a)

/-! ## The store record and its derivation operations

`StoreClass` holds four fields: the shared `transaction`/`transact`
function, the shared `listen` function, and the per-store `get`/`set`
pair.  Derivations construct a new record passing `this.transaction` and
`this.listen` through unchanged.  For the sharing invariant only the
plumbing matters, so the two shared fields are carried as opaque payloads
of types `M` and `N`, while `get`/`set` are modelled as explicit functions
of the root state `R`. -/

/-- The store record (`StoreClass`'s four constructor fields). -/
structure StoreE (M N R S : Type) where
  transact : M
  listen : N
  get : R → S
  set : R → S → R

/-- Source `substore(get, set)`: a store with new projections sharing
`this.transaction` and `this.listen`. -/
def StoreE.substore (p : StoreE M N R S) (g : R → T) (s : R → T → R) :
    StoreE M N R T :=
  ⟨p.transact, p.listen, g, s⟩

/-- Source `via(lens)` (through the private `lens` method):
`substore(() => lens.get(this.get()), t => this.set(lens.set(this.get(), t)))`. -/
def StoreE.via (p : StoreE M N R S) (ℓ : LensE S T) : StoreE M N R T :=
  p.substore (fun r => ℓ.get (p.get r)) (fun r t => p.set r (ℓ.set (p.get r) t))

/-- Source `at(k)`: `this.via(Lens.at(k))`. -/
def StoreE.atS (p : StoreE M N R (String → V)) (k : String) : StoreE M N R V :=
  p.via (atL k)

/-- Source `key(k)`: `this.via(Lens.key(k))`. -/
def StoreE.keyS (p : StoreE M N R (String → Option V)) (k : String) :
    StoreE M N R (Option V) :=
  p.via (keyL k)

/-- `Derives p q` holds when the store `q` is obtained from the store `p`
by a chain of the library's derivation operations
(`substore`, `via`, `at`, `key`). -/
inductive Derives {M N R : Type} :
    {S T : Type} → StoreE M N R S → StoreE M N R T → Prop
  | refl {S : Type} (p : StoreE M N R S) : Derives p p
  | substore {S T U : Type} {p : StoreE M N R S} {q : StoreE M N R T}
      (g : R → U) (s : R → U → R) :
      Derives p q → Derives p (q.substore g s)
  | via {S T U : Type} {p : StoreE M N R S} {q : StoreE M N R T}
      (ℓ : LensE T U) :
      Derives p q → Derives p (q.via ℓ)
  | atS {S V : Type} {p : StoreE M N R S} {q : StoreE M N R (String → V)}
      (k : String) :
      Derives p q → Derives p (q.atS k)
  | keyS {S V : Type} {p : StoreE M N R S}
      {q : StoreE M N R (String → Option V)} (k : String) :
      Derives p q → Derives p (q.keyS k)

/-! ## The Dannelib array-index reference (`Dannelib.ts`'s `at`) -/

/-- JavaScript `slice` index normalization: a negative index counts from
the end (clamped at 0), a nonnegative one is clamped at the length. -/
def jsIdx (len : Nat) (i : Int) : Nat :=
  if i < 0 then (len + i).toNat else min i.toNat len

/-- Dannelib `at(ref, index)`, read side: `ref.get()[index]`
(`undefined` whenever `index` falls outside the array). -/
def atRefGet (i : Int) (cell : List A) : Option A :=
  if 0 ≤ i then cell.get? i.toNat else none

/-- Dannelib `at(ref, index)`, write side, up to the `ref.set` call:
when `index < now.length`, the rebuilt array
`[...now.slice(0, index), v, ...now.slice(index + 1)]`; otherwise `none`,
meaning the guard failed and `ref.set` is never called. -/
def atRefWrite (i : Int) (v : A) (cell : List A) : Option (List A) :=
  if i < (cell.length : Int) then
    some (cell.take (jsIdx cell.length i) ++ v :: cell.drop (jsIdx cell.length (i + 1)))
  else
    none

/-- Dannelib `at(ref, index)` write against the engine: read the current
array and either write the rebuilt array through the root `set` (running
notification against the registry `L`) or, if the guard failed, do nothing
at all. -/
def atRefSet (L : List (List A → Cmd (List A))) (fuel : Nat) (i : Int) (v : A)
    (st : St (List A)) : St (List A) :=
  match atRefWrite i v st.val with
  | some ys => run L fuel (Cmd.setv ys) st
  | none => st

/-! ## Concrete records for the optional-key scenarios -/

/-- The record `{apa: 1, bepa: 2}` with optional number-valued keys. -/
def abRec : String → Option Nat :=
  fun j => if j = "apa" then some 1 else if j = "bepa" then some 2 else none

/-- The record `{bepa: 2}`. -/
def bepaRec : String → Option Nat :=
  fun j => if j = "bepa" then some 2 else none

/-- The empty record `{}`. -/
def emptyRec : String → Option Nat :=
  fun _ => none

/-! ## Lens laws for the pure constructors -/

theorem atL_get_set (k : String) (s : String → V) (v : V) :
    (atL k).get ((atL k).set s v) = v := by
  simp [atL, lensE]

theorem atL_set_get (k : String) (s : String → V) :
    (atL k).set s ((atL k).get s) = s := by
  funext j
  by_cases h : j = k <;> simp [atL, lensE, h]

theorem atL_set_set (k : String) (s : String → V) (a b : V) :
    (atL k).set ((atL k).set s a) b = (atL k).set s b := by
  funext j
  by_cases h : j = k <;> simp [atL, lensE, h]

theorem keyL_get_set (k : String) (s : String → Option V) (v : Option V) :
    (keyL k).get ((keyL k).set s v) = v := by
  cases v <;> simp [keyL, lensE]

theorem keyL_set_get (k : String) (s : String → Option V) :
    (keyL k).set s ((keyL k).get s) = s := by
  funext j
  by_cases h : j = k
  · cases hs : s k <;> simp [keyL, lensE, hs, h]
  · cases hs : s k <;> simp [keyL, lensE, hs, h]

theorem keyL_set_set (k : String) (s : String → Option V) (a b : Option V) :
    (keyL k).set ((keyL k).set s a) b = (keyL k).set s b := by
  funext j
  by_cases h : j = k <;> cases a <;> cases b <;> simp [keyL, lensE, h]

theorem defL_get_set [DecidableEq V] (missing : V) (s : Option V) (t : V) :
    (defL missing).get ((defL missing).set s t) = t := by
  by_cases h : t = missing <;> simp [defL, isoE, lensE, h]

theorem defL_set_set [DecidableEq V] (missing : V) (s : Option V) (a b : V) :
    (defL missing).set ((defL missing).set s a) b = (defL missing).set s b := rfl

theorem defL_set_get [DecidableEq V] (missing : V) (s : Option V)
    (h : s ≠ some missing) : (defL missing).set s ((defL missing).get s) = s := by
  cases s with
  | none => simp [defL, isoE, lensE]
  | some x =>
    have hx : x ≠ missing := by
      intro hx
      exact h (by simp [hx])
    simp [defL, isoE, lensE, hx]

/-! ### rtrim facts, towards the total index lens -/

theorem rtrim_cons_of_ne_nil (y : Option A) (ys : List (Option A))
    (h : rtrim ys ≠ []) : rtrim (y :: ys) = y :: rtrim ys := by
  rw [rtrim, if_neg]
  simp [List.isEmpty_iff, h]

theorem rtrim_cons_some (v : A) (ys : List (Option A)) :
    rtrim (some v :: ys) = some v :: rtrim ys := by
  rw [rtrim, if_neg]
  simp [Option.isNone]

theorem rtrim_length_le (ys : List (Option A)) : (rtrim ys).length ≤ ys.length := by
  induction ys with
  | nil => simp [rtrim]
  | cons y ys ih =>
    rw [rtrim]
    split
    · simp
    · simpa using ih

theorem rtrim_get?_of_some (ys : List (Option A)) :
    ∀ i v, ys.get? i = some (some v) → (rtrim ys).get? i = some (some v) := by
  induction ys with
  | nil => intro i v h; simp at h
  | cons y ys ih =>
    intro i v h
    cases i with
    | zero =>
      have hy : y = some v := by simpa using h
      subst hy
      rw [rtrim_cons_some]
      rfl
    | succ i =>
      have h' : ys.get? i = some (some v) := h
      have hx := ih i v h'
      have hne : rtrim ys ≠ [] := by
        intro hnil
        rw [hnil] at hx
        simp at hx
      rw [rtrim_cons_of_ne_nil _ _ hne]
      exact hx

/-- `get?` at precisely the length of the left list. -/
theorem get?_len_append (a b : List A) (n : Nat) (h : a.length = n) :
    (a ++ b).get? n = b.get? 0 := by
  subst h
  induction a with
  | nil => rfl
  | cons x a ih => simpa using ih

/-- `get?` past the left list. -/
theorem get?_append_plus (a b : List A) (i : Nat) :
    (a ++ b).get? (a.length + i) = b.get? i := by
  induction a with
  | nil => simp
  | cons x a ih => simpa [Nat.succ_add] using ih

theorem get?_of_length_le (a : List A) (i : Nat) (h : a.length ≤ i) :
    a.get? i = none :=
  List.get?_eq_none.mpr h

/-- The total `index` lens satisfies the set-then-get law whenever the
written value is present, or the index is out of range. -/
theorem indexT_get_set (position : Nat) (xs : List (Option A)) (x : Option A)
    (h : x ≠ none ∨ xs.length ≤ position) :
    (indexT position).get ((indexT position).set xs x) = x := by
  by_cases hp : position < xs.length
  · have hx : x ≠ none := h.resolve_right (by omega)
    cases x with
    | none => exact absurd rfl hx
    | some v =>
      have hlen : (xs.take position).length = position := by
        rw [List.length_take]
        omega
      have hget : ((xs.take position) ++ some v :: xs.drop (position + 1)).get? position
          = some (some v) := by
        rw [get?_len_append _ _ _ hlen]
        rfl
      have hrt := rtrim_get?_of_some _ position v hget
      have hset : (indexT position).set xs (some v)
          = rtrim (xs.take position ++ some v :: xs.drop (position + 1)) := by
        simp [indexT, lensE, hp]
      show (((indexT position).set xs (some v)).get? position).join = some v
      rw [hset, hrt]
      rfl
  · have hle : xs.length ≤ position := by omega
    cases x with
    | none =>
      have hrt : (rtrim xs).get? position = none :=
        get?_of_length_le _ _ (le_trans (rtrim_length_le xs) hle)
      have hset : (indexT position).set xs none = rtrim xs := by
        simp [indexT, lensE, hp]
      show (((indexT position).set xs none).get? position).join = none
      rw [hset, hrt]
      rfl
    | some v =>
      have hget : (xs ++ (List.replicate (position - xs.length) none ++ [some v])).get? position
          = some (some v) := by
        rw [show position = xs.length + (position - xs.length) by omega, get?_append_plus,
          get?_len_append _ _ _ (by rw [List.length_replicate]; omega)]
        rfl
      have hrt := rtrim_get?_of_some _ position v hget
      have hset : (indexT position).set xs (some v)
          = rtrim (xs ++ (List.replicate (position - xs.length) none ++ [some v])) := by
        simp [indexT, lensE, hp]
      show (((indexT position).set xs (some v)).get? position).join = some v
      rw [hset, hrt]
      rfl

/-! ## Engine unfolding equations -/

theorem run_zero (L : List (V → Cmd V)) (c : Cmd V) (st : St V) :
    run L 0 c st = st := rfl

theorem run_skip (L : List (V → Cmd V)) (fuel : Nat) (st : St V) :
    run L fuel Cmd.skip st = st := by
  cases fuel <;> rfl

theorem run_seq (L : List (V → Cmd V)) (f : Nat) (c₁ c₂ : Cmd V) (st : St V) :
    run L (f + 1) (Cmd.seq c₁ c₂) st = run L f c₂ (run L f c₁ st) := rfl

theorem run_setv (L : List (V → Cmd V)) (f : Nat) (v : V) (st : St V) :
    run L (f + 1) (Cmd.setv v) st
      = run L f Cmd.note
          { st with val := v, pending := true, trace := st.trace ++ [Ev.write v] } := rfl

theorem run_trans (L : List (V → Cmd V)) (f : Nat) (c : Cmd V) (st : St V) :
    run L (f + 1) (Cmd.trans c) st
      = run L f Cmd.note
          { run L f c { st with depth := st.depth + 1 } with
            depth := (run L f c { st with depth := st.depth + 1 }).depth - 1 } := rfl

theorem run_invoke (L : List (V → Cmd V)) (f : Nat) (k : V → Cmd V) (st : St V) :
    run L (f + 1) (Cmd.invoke k) st
      = run L f (k st.val) { st with trace := st.trace ++ [Ev.invoke st.val] } := rfl

theorem run_pass (L : List (V → Cmd V)) (f : Nat) (c : Cmd V) (st : St V) :
    run L (f + 1) (Cmd.pass c) st
      = { run L f c { st with trace := st.trace ++ [Ev.passStart] } with
          trace := (run L f c { st with trace := st.trace ++ [Ev.passStart] }).trace
            ++ [Ev.passEnd] } := rfl

theorem run_note (L : List (V → Cmd V)) (f : Nat) (st : St V) :
    run L (f + 1) Cmd.note st
      = if st.depth = 0 ∧ st.pending then
          run L f (Cmd.trans (Cmd.pass (iterCmd L))) { st with pending := false }
        else st := rfl

/-- `notify` does nothing unless `depth == 0 && pending`. -/
theorem run_note_inert (L : List (V → Cmd V)) (st : St V)
    (h : ¬(st.depth = 0 ∧ st.pending)) (fuel : Nat) :
    run L fuel Cmd.note st = st := by
  cases fuel with
  | zero => rfl
  | succ f => rw [run_note, if_neg h]

/-- A `set` executed at positive transaction depth (in particular, a
re-entrant `set` performed by a listener during a notification pass, which
runs inside the fresh `transact` that `notify` opens) only overwrites the
cell and marks `pending`: the `notify` it calls is inert, so no nested
notification pass starts synchronously. -/
theorem run_setv_deep (L : List (V → Cmd V)) (v : V) (st : St V)
    (hd : 0 < st.depth) (fuel : Nat) (hf : 1 ≤ fuel) :
    run L fuel (Cmd.setv v) st
      = { st with val := v, pending := true, trace := st.trace ++ [Ev.write v] } := by
  cases fuel with
  | zero => omega
  | succ f =>
    rw [run_setv]
    exact run_note_inert _ _ (by simp; omega) _

/-! ## Trace bookkeeping -/

theorem noPassB_append (a b : List (Ev V)) :
    noPassB (a ++ b) = (noPassB a && noPassB b) := by
  simp [noPassB, List.all_append]

theorem opensFrom_append (a b : List (Ev V)) :
    ∀ n, opensFrom n (a ++ b) = (opensFrom n a).bind (fun m => opensFrom m b) := by
  induction a with
  | nil => intro n; rfl
  | cons e a ih =>
    intro n
    cases e with
    | passStart =>
      by_cases h : n = 0 <;> simp [opensFrom, h, ih]
    | passEnd =>
      by_cases h : n = 1 <;> simp [opensFrom, h, ih]
    | write v => simpa [opensFrom] using ih n
    | invoke v => simpa [opensFrom] using ih n

theorem opensFrom_noPass (ws : List (Ev V)) (h : noPassB ws = true) :
    ∀ n, opensFrom n ws = some n := by
  induction ws with
  | nil => intro n; rfl
  | cons e ws ih =>
    intro n
    rw [noPassB] at h
    simp only [List.all_cons, Bool.and_eq_true] at h
    cases e with
    | passStart => simp [isPassEv] at h
    | passEnd => simp [isPassEv] at h
    | write v => exact ih (by simpa [noPassB] using h.2) n
    | invoke v => exact ih (by simpa [noPassB] using h.2) n

/-! ## Listener bodies that only perform writes -/

/-- Running a `setOnly` command (a listener body made of `set`s) at positive
depth preserves the depth and appends only non-bracket events to the trace. -/
theorem run_setOnly_shape (L : List (V → Cmd V)) (c : Cmd V)
    (hc : setOnly c = true) :
    ∀ fuel (st : St V), 0 < st.depth →
      (run L fuel c st).depth = st.depth ∧
      ∃ ws, noPassB ws = true ∧ (run L fuel c st).trace = st.trace ++ ws := by
  induction c with
  | skip =>
    intro fuel st _
    rw [run_skip]
    exact ⟨rfl, [], rfl, by rw [List.append_nil]⟩
  | setv v =>
    intro fuel st hd
    cases fuel with
    | zero => exact ⟨rfl, [], rfl, by rw [run_zero, List.append_nil]⟩
    | succ f =>
      rw [run_setv_deep L v st hd _ (by omega)]
      exact ⟨rfl, [Ev.write v], by simp [noPassB, isPassEv], rfl⟩
  | seq c₁ c₂ ih₁ ih₂ =>
    intro fuel st hd
    simp only [setOnly, Bool.and_eq_true] at hc
    cases fuel with
    | zero => exact ⟨rfl, [], rfl, by rw [run_zero, List.append_nil]⟩
    | succ f =>
      rw [run_seq]
      obtain ⟨hd₁, ws₁, hn₁, ht₁⟩ := ih₁ hc.1 f st hd
      obtain ⟨hd₂, ws₂, hn₂, ht₂⟩ := ih₂ hc.2 f (run L f c₁ st) (by omega)
      refine ⟨by omega, ws₁ ++ ws₂, ?_, ?_⟩
      · simp [noPassB_append, hn₁, hn₂]
      · rw [ht₂, ht₁, List.append_assoc]
  | trans c ih => simp [setOnly] at hc
  | invoke k => simp [setOnly] at hc
  | pass c ih => simp [setOnly] at hc
  | note => simp [setOnly] at hc

/-- Invoking a single write-only listener at positive depth preserves the
depth and appends only non-bracket events. -/
theorem run_invoke_shape (L : List (V → Cmd V)) (k : V → Cmd V)
    (hk : ∀ v, setOnly (k v) = true) :
    ∀ fuel (st : St V), 0 < st.depth →
      (run L fuel (Cmd.invoke k) st).depth = st.depth ∧
      ∃ ws, noPassB ws = true ∧ (run L fuel (Cmd.invoke k) st).trace = st.trace ++ ws := by
  intro fuel st hd
  cases fuel with
  | zero => exact ⟨rfl, [], rfl, by rw [run_zero, List.append_nil]⟩
  | succ f =>
    rw [run_invoke]
    obtain ⟨hdep, ws, hn, ht⟩ :=
      run_setOnly_shape L (k st.val) (hk st.val) f
        { st with trace := st.trace ++ [Ev.invoke st.val] } hd
    refine ⟨hdep, Ev.invoke st.val :: ws, ?_, ?_⟩
    · simpa [noPassB, isPassEv] using hn
    · rw [ht]
      simp

theorem iterCmd_nil : iterCmd ([] : List (V → Cmd V)) = Cmd.skip := rfl

theorem iterCmd_cons (k : V → Cmd V) (ks : List (V → Cmd V)) :
    iterCmd (k :: ks) = Cmd.seq (Cmd.invoke k) (iterCmd ks) := rfl

/-- The listener iteration at positive depth (inside the fresh `transact`
of a notification pass), over write-only listeners: depth is preserved and
only non-bracket events are appended. -/
theorem run_iter_shape (L : List (V → Cmd V)) (ks : List (V → Cmd V))
    (hks : ∀ k ∈ ks, ∀ v, setOnly (k v) = true) :
    ∀ fuel (st : St V), 0 < st.depth →
      (run L fuel (iterCmd ks) st).depth = st.depth ∧
      ∃ ws, noPassB ws = true ∧ (run L fuel (iterCmd ks) st).trace = st.trace ++ ws := by
  induction ks with
  | nil =>
    intro fuel st _
    rw [iterCmd_nil, run_skip]
    exact ⟨rfl, [], rfl, by rw [List.append_nil]⟩
  | cons k ks ih =>
    intro fuel st hd
    rw [iterCmd_cons]
    cases fuel with
    | zero => exact ⟨rfl, [], rfl, by rw [run_zero, List.append_nil]⟩
    | succ f =>
      rw [run_seq]
      obtain ⟨hd₁, ws₁, hn₁, ht₁⟩ :=
        run_invoke_shape L k (hks k (by simp)) f st hd
      obtain ⟨hd₂, ws₂, hn₂, ht₂⟩ :=
        ih (fun k' hk' => hks k' (by simp [hk'])) f (run L f (Cmd.invoke k) st) (by omega)
      refine ⟨by omega, ws₁ ++ ws₂, ?_, ?_⟩
      · simp [noPassB_append, hn₁, hn₂]
      · rw [ht₂, ht₁, List.append_assoc]

/-- `notify` invoked at depth 0 over write-only listeners appends a
sequence of complete, never-nested notification passes to the trace and
returns to depth 0. -/
theorem run_note_passes (L : List (V → Cmd V)) (hL : SetOnlyL L) :
    ∀ fuel (st : St V), st.depth = 0 →
      (run L fuel Cmd.note st).depth = 0 ∧
      ∃ evs, opensFrom 0 evs = some 0 ∧
        (run L fuel Cmd.note st).trace = st.trace ++ evs := by
  intro fuel
  induction fuel using Nat.strong_induction_on with
  | _ fuel IH =>
    intro st hd
    obtain ⟨v, d, p, tr⟩ := st
    replace hd : d = 0 := hd
    subst hd
    cases fuel with
    | zero => exact ⟨rfl, [], rfl, by rw [run_zero, List.append_nil]⟩
    | succ f =>
      rw [run_note]
      by_cases hp : p = true
      · subst hp
        rw [if_pos ⟨rfl, rfl⟩]
        dsimp only
        cases f with
        | zero => exact ⟨rfl, [], rfl, by rw [run_zero, List.append_nil]⟩
        | succ g =>
          rw [run_trans]
          dsimp only
          cases g with
          | zero =>
            exact ⟨rfl, [], rfl, by rw [run_zero, run_zero]; exact (List.append_nil tr).symm⟩
          | succ h =>
            rw [run_pass]
            dsimp only
            obtain ⟨hdB, ws, hnw, htB⟩ :=
              run_iter_shape L L hL h ⟨v, 1, false, tr ++ [Ev.passStart]⟩ (by simp)
            rw [htB]
            obtain ⟨hdR, evs₂, ho₂, htR⟩ :=
              IH (h + 1) (by omega)
                ⟨(run L h (iterCmd L) ⟨v, 1, false, tr ++ [Ev.passStart]⟩).val,
                 (run L h (iterCmd L) ⟨v, 1, false, tr ++ [Ev.passStart]⟩).depth - 1,
                 (run L h (iterCmd L) ⟨v, 1, false, tr ++ [Ev.passStart]⟩).pending,
                 ((tr ++ [Ev.passStart]) ++ ws) ++ [Ev.passEnd]⟩
                (by simp [hdB])
            refine ⟨?_, Ev.passStart :: (ws ++ ([Ev.passEnd] ++ evs₂)), ?_, ?_⟩
            · exact hdR
            · show opensFrom 0 (Ev.passStart :: (ws ++ ([Ev.passEnd] ++ evs₂))) = some 0
              rw [opensFrom, if_pos rfl, opensFrom_append, opensFrom_noPass ws hnw 1]
              show opensFrom 1 (Ev.passEnd :: evs₂) = some 0
              rw [opensFrom, if_pos rfl]
              exact ho₂
            · rw [htR]
              simp
      · rw [if_neg (by simpa using hp)]
        exact ⟨rfl, [], rfl, by rw [List.append_nil]⟩

/-! ## Exact characterizations with pure logging listeners -/

theorem batchCmd_nil : batchCmd ([] : List V) = Cmd.skip := rfl

theorem batchCmd_cons (v : V) (vs : List V) :
    batchCmd (v :: vs) = Cmd.seq (Cmd.setv v) (batchCmd vs) := rfl

/-- The listener iteration over pure logging listeners: each subscribed
callback is invoked exactly once, in order, each observing the current
value. -/
theorem run_iter_loggers (L ks : List (V → Cmd V))
    (hks : ∀ k ∈ ks, ∀ v, k v = Cmd.skip) :
    ∀ fuel (st : St V), ks.length + 1 ≤ fuel →
      run L fuel (iterCmd ks) st
        = { st with trace := st.trace ++ ks.map (fun _ => Ev.invoke st.val) } := by
  induction ks with
  | nil =>
    intro fuel st _
    rw [iterCmd_nil, run_skip]
    cases st
    simp
  | cons k ks ih =>
    intro fuel st hf
    rw [iterCmd_cons]
    cases fuel with
    | zero => omega
    | succ f =>
      rw [run_seq]
      cases f with
      | zero => simp at hf
      | succ g =>
        rw [run_invoke, hks k (by simp) st.val, run_skip]
        rw [ih (fun k' hk' => hks k' (by simp [hk'])) (g + 1)
          { st with trace := st.trace ++ [Ev.invoke st.val] } (by simp at hf ⊢; omega)]
        cases st
        simp

/-- `notify` at depth 0 with `pending` set, over pure logging listeners:
one complete pass runs, invoking every listener exactly once with the
current value, and `pending` is cleared. -/
theorem run_note_loggers (L : List (V → Cmd V)) (hL : PureL L) :
    ∀ fuel (st : St V), L.length + 4 ≤ fuel → st.depth = 0 → st.pending = true →
      run L fuel Cmd.note st
        = { st with
            pending := false,
            trace := st.trace ++ Ev.passStart :: (L.map (fun _ => Ev.invoke st.val) ++ [Ev.passEnd]) } := by
  intro fuel st hf hd hp
  obtain ⟨v, d, p, tr⟩ := st
  replace hd : d = 0 := hd
  replace hp : p = true := hp
  subst hd
  subst hp
  cases fuel with
  | zero => omega
  | succ f =>
    rw [run_note, if_pos ⟨rfl, rfl⟩]
    dsimp only
    cases f with
    | zero => omega
    | succ g =>
      rw [run_trans]
      dsimp only
      cases g with
      | zero => omega
      | succ h =>
        rw [run_pass]
        dsimp only
        rw [run_iter_loggers L L hL h ⟨v, 1, false, tr ++ [Ev.passStart]⟩ (by omega)]
        dsimp only
        rw [run_note_inert _ _ (by simp)]
        simp

/-- A top-level `set` (depth 0) with pure logging listeners: the cell is
overwritten, `pending` is raised and then consumed by a single complete
notification pass in which every subscribed listener is invoked exactly
once, observing the newly written value — no comparison with the previous
value happens anywhere. -/
theorem run_setv_loggers (L : List (V → Cmd V)) (hL : PureL L) :
    ∀ fuel (st : St V) (v : V), L.length + 5 ≤ fuel → st.depth = 0 →
      run L fuel (Cmd.setv v) st
        = { st with
            val := v,
            pending := false,
            trace := st.trace ++ Ev.write v :: Ev.passStart :: (L.map (fun _ => Ev.invoke v) ++ [Ev.passEnd]) } := by
  intro fuel st v hf hd
  cases fuel with
  | zero => omega
  | succ f =>
    rw [run_setv]
    rw [run_note_loggers L hL f _ (by omega) (by simpa using hd) rfl]
    cases st
    simp

/-- A transaction body consisting of a batch of `set`s, run at positive
depth: every write lands (the last one winning) with `pending` raised, and
no listener is invoked along the way. -/
theorem run_batch (L : List (V → Cmd V)) (vs : List V) :
    ∀ fuel (st : St V), 0 < st.depth → vs.length + 1 ≤ fuel → ∀ (hvs : vs ≠ []),
      run L fuel (batchCmd vs) st
        = { st with
            val := vs.getLast hvs,
            pending := true,
            trace := st.trace ++ vs.map Ev.write } := by
  induction vs with
  | nil => intro _ _ _ _ hvs; exact absurd rfl hvs
  | cons v vs ih =>
    intro fuel st hd hf hvs
    rw [batchCmd_cons]
    cases fuel with
    | zero => omega
    | succ f =>
      rw [run_seq, run_setv_deep L v st hd f (by simp at hf; omega)]
      by_cases hvs' : vs = []
      · subst hvs'
        rw [batchCmd_nil, run_skip]
        simp
      · rw [ih f _ (by dsimp only; omega) (by simp at hf ⊢; omega) hvs']
        cases st
        simp [List.getLast_cons hvs']

/-! ## Trace observations -/

theorem invokeValues_append (a b : List (Ev V)) :
    invokeValues (a ++ b) = invokeValues a ++ invokeValues b := by
  induction a with
  | nil => rfl
  | cons e a ih =>
    cases e <;> simp [invokeValues, ih]

theorem invokeValues_writes (vs : List V) :
    invokeValues (vs.map Ev.write) = [] := by
  induction vs with
  | nil => rfl
  | cons v vs ih => simpa [invokeValues] using ih

theorem invokeValues_invokes (ks : List α) (v : V) :
    invokeValues (ks.map (fun _ => Ev.invoke v)) = ks.map (fun _ => v) := by
  induction ks with
  | nil => rfl
  | cons k ks ih => simpa [invokeValues] using ih

/-! ## Claim theorems -/

/-- Claim C1: for a root store with one subscribed counting listener,
running `store.transaction(() => { store.set v₁; ...; store.set vₙ })`
from a quiescent root invokes the listener exactly once for the whole
top-level transaction — not once per internal set — and the listener
observes the final value of the batch, never an intermediate one: the
resulting trace is the batched writes followed by a single notification
pass containing exactly one invocation, observing the last value set. -/
theorem claim1_transaction_batches_once (V : Type) (v₀ : V) (vs : List V)
    (fuel : Nat) (hvs : vs ≠ []) (hf : vs.length + 6 ≤ fuel) :
    run [fun _ => Cmd.skip] fuel (Cmd.trans (batchCmd vs)) ⟨v₀, 0, false, []⟩
      = ⟨vs.getLast hvs, 0, false,
         vs.map Ev.write ++ Ev.passStart :: Ev.invoke (vs.getLast hvs) :: [Ev.passEnd]⟩
    ∧ invokeValues ((run [fun _ => Cmd.skip] fuel (Cmd.trans (batchCmd vs))
        ⟨v₀, 0, false, []⟩).trace) = [vs.getLast hvs] := by
  have h1 : run [fun _ => Cmd.skip] fuel (Cmd.trans (batchCmd vs)) ⟨v₀, 0, false, []⟩
      = ⟨vs.getLast hvs, 0, false,
         vs.map Ev.write ++ Ev.passStart :: Ev.invoke (vs.getLast hvs) :: [Ev.passEnd]⟩ := by
    cases fuel with
    | zero => omega
    | succ f =>
      rw [run_trans]
      dsimp only
      rw [run_batch [fun _ => Cmd.skip] vs f ⟨v₀, 1, false, []⟩ Nat.one_pos
        (by omega) hvs]
      dsimp only
      rw [run_note_loggers [fun _ => Cmd.skip]
        (by intro k hk v; simp at hk; subst hk; rfl) f
        ⟨vs.getLast hvs, 0, true, [] ++ vs.map Ev.write⟩ (by simp; omega) rfl rfl]
      simp
  exact ⟨h1, by
    rw [h1]
    simp [invokeValues_append, invokeValues_writes, invokeValues]⟩

/-- Witness for C1 at the spec's concrete scenario: one counting listener,
`transaction(() => { set 2; set 3 })` on a root holding 1 — the listener
is invoked exactly once, observing 3 and never 2. -/
theorem claim1_witness :
    invokeValues ((run [fun _ => (Cmd.skip : Cmd Nat)] 20 (Cmd.trans (batchCmd [2, 3]))
      ⟨1, 0, false, []⟩).trace) = [3] := by
  have h := (claim1_transaction_batches_once Nat 1 [2, 3] 20 (by decide) (by decide)).2
  have hlast : List.getLast [2, 3] (by decide) = 3 := rfl
  rw [h, hlast]

/-- Claim C5: a re-entrant `set` performed by a listener during a notify
pass never triggers a synchronous nested notification inside the
already-executing pass. (i) A `set` at positive depth — as inside the
fresh `transact` that `notify` wraps around the listener iteration — only
overwrites the cell and marks `pending`; the `notify` it calls is inert,
deferring the notification to a subsequent pass. (ii) Consequently, for
any registry of listeners that (re-entrantly) perform batched writes, a
top-level `set` produces a trace whose notification passes are complete
and never nested: at most one notify pass is in flight at every moment. -/
theorem claim5_reentrant_set_deferred (V : Type) :
    (∀ (L : List (V → Cmd V)) (v : V) (st : St V) (fuel : Nat),
        0 < st.depth → 1 ≤ fuel →
        run L fuel (Cmd.setv v) st
          = { st with val := v, pending := true, trace := st.trace ++ [Ev.write v] })
    ∧ (∀ (L : List (V → Cmd V)) (v : V) (st : St V) (fuel : Nat),
        SetOnlyL L → st.depth = 0 → st.trace = [] →
        opensFrom 0 ((run L fuel (Cmd.setv v) st).trace) = some 0) := by
  constructor
  · intro L v st fuel hd hf
    exact run_setv_deep L v st hd fuel hf
  · intro L v st fuel hL hd htr
    cases fuel with
    | zero =>
      rw [run_zero, htr]
      rfl
    | succ f =>
      rw [run_setv]
      obtain ⟨_, evs, ho, htrace⟩ :=
        run_note_passes L hL f
          { st with val := v, pending := true, trace := st.trace ++ [Ev.write v] }
          (by simpa using hd)
      rw [htrace]
      dsimp only
      rw [htr, List.nil_append]
      exact ho

/-- Witness for C5: (i) a set at depth 1 only records the write; (ii) with
a listener that re-entrantly sets 3 upon observing 2 plus a logging
listener, a top-level `set 2` still yields a well-bracketed, never-nested
sequence of notification passes. -/
theorem claim5_witness :
    run ([] : List (Nat → Cmd Nat)) 3 (Cmd.setv 5) ⟨0, 1, false, []⟩
      = ⟨5, 1, true, [Ev.write 5]⟩
    ∧ opensFrom 0 ((run [fun v => if v = 2 then Cmd.setv 3 else Cmd.skip,
        fun _ => Cmd.skip] 30 (Cmd.setv 2) ⟨1, 0, false, []⟩).trace) = some 0 := by
  constructor
  · have h := (claim5_reentrant_set_deferred Nat).1 [] 5 ⟨0, 1, false, []⟩ 3
      (by decide) (by decide)
    simpa using h
  · exact (claim5_reentrant_set_deferred Nat).2
      [fun v => if v = 2 then Cmd.setv 3 else Cmd.skip, fun _ => Cmd.skip] 2
      ⟨1, 0, false, []⟩ 30
      (by
        intro k hk v
        simp at hk
        rcases hk with rfl | rfl
        · by_cases h : v = 2 <;> simp [setOnly, h]
        · simp [setOnly])
      rfl rfl

/-- Claim C9: a top-level `set` marks the store pending and invokes every
subscribed on-listener exactly once with the written value; the hypotheses
place no constraint relating the written value to the current one, so this
holds in particular for `s.set(s.get())` — no equality or identity check in
`set` suppresses notification.  Only the separate `ondiff` subscription
filters: its callback does not fire when the observed value equals the
remembered previous one, and fires with `(new, old)` when they differ. -/
theorem claim9_set_always_notifies (V : Type) [DecidableEq V]
    (L : List (V → Cmd V)) (fuel : Nat) (st : St V) (v : V)
    (hL : PureL L) (hf : L.length + 5 ≤ fuel) (hd : st.depth = 0) :
    (run L fuel (Cmd.setv v) st
      = { st with
          val := v,
          pending := false,
          trace := st.trace ++ Ev.write v :: Ev.passStart :: (L.map (fun _ => Ev.invoke v) ++ [Ev.passEnd]) })
    ∧ invokeValues ((run L fuel (Cmd.setv v) st).trace)
        = invokeValues st.trace ++ L.map (fun _ => v)
    ∧ (∀ old : V, ondiffRun old [old] = [])
    ∧ (∀ old nv : V, nv ≠ old → ondiffRun old [nv] = [(nv, old)]) := by
  have h1 := run_setv_loggers L hL fuel st v hf hd
  refine ⟨h1, ?_, ?_, ?_⟩
  · rw [h1]
    dsimp only
    have hrep : ∀ n : Nat, invokeValues (List.replicate n (Ev.invoke v)) = List.replicate n v := by
      intro n
      induction n with
      | zero => rfl
      | succ m ih => simp [List.replicate_succ, invokeValues, ih]
    simp [invokeValues_append, invokeValues, invokeValues_invokes, hrep]
  · intro old
    simp [ondiffRun]
  · intro old nv h
    simp [ondiffRun, h]

/-- Witness for C9: two subscribed listeners, `set 7` on a root already
holding 7 — both listeners are still invoked, each exactly once, observing
7; while an `ondiff` subscription remembering 7 does not fire on it. -/
theorem claim9_witness :
    invokeValues ((run [fun _ => (Cmd.skip : Cmd Nat), fun _ => Cmd.skip] 10
        (Cmd.setv 7) ⟨7, 0, false, []⟩).trace) = [7, 7]
    ∧ ondiffRun (7 : Nat) [7] = [] := by
  have h := claim9_set_always_notifies Nat [fun _ => Cmd.skip, fun _ => Cmd.skip] 10
    ⟨7, 0, false, []⟩ 7
    (by intro k hk v; simp at hk; subst hk; rfl)
    (by decide) rfl
  refine ⟨?_, h.2.2.1 7⟩
  have h2 := h.2.1
  simpa [invokeValues] using h2

/-- Claim C4 (amended): for the root store and any store derived through a
lens satisfying the set-then-get law — in particular `at`-, `key`- and
`def`-derived stores and their compositions — `s.set(a).get() == a` holds,
provided the subscribed listeners are pure observers.  As stated the claim
is refuted by `claim4_counterexample`: an `each`/`index`-derived store
violates it when the absence marker is written at an occupied index. -/
theorem claim4_amended (S T : Type) (ℓ : LensE S T) (L : List (S → Cmd S))
    (fuel : Nat) (st : St S) (a : T)
    (hL : PureL L) (hd : st.depth = 0) (hf : L.length + 5 ≤ fuel)
    (hlaw : ∀ s b, ℓ.get (ℓ.set s b) = b) :
    storeViaGet ℓ (storeViaSet ℓ L fuel st a) = a := by
  unfold storeViaGet storeViaSet
  rw [run_setv_loggers L hL fuel st (ℓ.set st.val a) hf hd]
  exact hlaw st.val a

/-- Witness for the amended C4: a `def(0)`-derived store over a root
holding `some 5`: writing 3 and reading back yields 3. -/
theorem claim4_witness :
    storeViaGet (defL 0) (storeViaSet (defL 0)
      ([] : List (Option Nat → Cmd (Option Nat))) 9 ⟨some 5, 0, false, []⟩ 3) = 3 :=
  claim4_amended (Option Nat) Nat (defL 0) [] 9 ⟨some 5, 0, false, []⟩ 3
    (fun k hk => absurd hk (List.not_mem_nil k))
    rfl (by decide) (fun s b => defL_get_set 0 s b)

/-- Counterexample to claim C4 as stated: the store derived from the root
`[1, 2]` via the library's total `index 0` lens (the store `each` builds
for position 0) violates `s.set(a).get() == a` when `a` is the absence
marker: writing `undefined` removes the element and shifts the array, so
the subsequent `get` observes `2`, not `undefined`. -/
theorem claim4_counterexample :
    storeViaGet (indexT 0) (storeViaSet (indexT 0)
        ([] : List (List (Option Nat) → Cmd (List (Option Nat)))) 5
        ⟨[some 1, some 2], 0, false, []⟩ none) = some 2
    ∧ storeViaGet (indexT 0) (storeViaSet (indexT 0)
        ([] : List (List (Option Nat) → Cmd (List (Option Nat)))) 5
        ⟨[some 1, some 2], 0, false, []⟩ none) ≠ none := by
  decide

/-- Claim C3 (amended): the `at` and `key` lens constructors satisfy all
three lens laws for all representable inputs; `def(missing)` satisfies the
set-then-get and set-then-set laws unconditionally but the no-op-write law
`set(s, get(s)) = s` only on states other than a present value equal to
the chosen default; the total `index` lens satisfies the set-then-get law
when the written value is present or the index is out of range.  As
stated, the claim is refuted by `claim3_counterexample`. -/
theorem claim3_amended (V : Type) [DecidableEq V] :
    (∀ (k : String) (s : String → V) (v : V), (atL k).get ((atL k).set s v) = v)
    ∧ (∀ (k : String) (s : String → V), (atL k).set s ((atL k).get s) = s)
    ∧ (∀ (k : String) (s : String → V) (a b : V),
        (atL k).set ((atL k).set s a) b = (atL k).set s b)
    ∧ (∀ (k : String) (s : String → Option V) (v : Option V),
        (keyL k).get ((keyL k).set s v) = v)
    ∧ (∀ (k : String) (s : String → Option V), (keyL k).set s ((keyL k).get s) = s)
    ∧ (∀ (k : String) (s : String → Option V) (a b : Option V),
        (keyL k).set ((keyL k).set s a) b = (keyL k).set s b)
    ∧ (∀ (missing : V) (s : Option V) (t : V),
        (defL missing).get ((defL missing).set s t) = t)
    ∧ (∀ (missing : V) (s : Option V) (a b : V),
        (defL missing).set ((defL missing).set s a) b = (defL missing).set s b)
    ∧ (∀ (missing : V) (s : Option V), s ≠ some missing →
        (defL missing).set s ((defL missing).get s) = s)
    ∧ (∀ (position : Nat) (xs : List (Option V)) (x : Option V),
        x ≠ none ∨ xs.length ≤ position →
        (indexT position).get ((indexT position).set xs x) = x) :=
  ⟨atL_get_set, atL_set_get, atL_set_set, keyL_get_set, keyL_set_get, keyL_set_set,
    defL_get_set, defL_set_set, fun m s h => defL_set_get m s h, indexT_get_set⟩

/-- Witness for the amended C3: the conditional `def` and `index` clauses
instantiated at concrete inputs satisfying their side conditions. -/
theorem claim3_witness :
    (defL (0 : Nat)).set (some 5) ((defL 0).get (some 5)) = some 5
    ∧ (indexT 1).get ((indexT 1).set [some 1, some 2, some 3] (some (9 : Nat))) = some 9 := by
  constructor
  · exact (claim3_amended Nat).2.2.2.2.2.2.2.2.1 0 (some 5) (by decide)
  · exact (claim3_amended Nat).2.2.2.2.2.2.2.2.2 1 [some 1, some 2, some 3] (some 9)
      (Or.inl (by decide))

/-- Counterexample to claim C3 as stated: the `def(0)` lens violates the
second lens law `set(s, get(s)) = s` at the representable input `some 0`
(a stored value equal to the chosen default): the "no-op" write collapses
the present value to absence. -/
theorem claim3_counterexample :
    (defL (0 : Nat)).set (some 0) ((defL 0).get (some 0)) ≠ some 0 := by
  decide

/-- Claim C7: over `{apa: 1, bepa: 2}`, setting the `apa` optional-key
store to `undefined` leaves the root holding `{bepa: 2}`; and over
`{bepa: 2}`, the store composed through `key('bepa')` and `def(0)`, set to
`0` (exactly the default), collapses the key to absence, leaving `{}`. -/
theorem claim7_optional_key_scenarios :
    (storeViaSet (keyL "apa")
        ([] : List ((String → Option Nat) → Cmd (String → Option Nat))) 5
        ⟨abRec, 0, false, []⟩ none).val = bepaRec
    ∧ (storeViaSet (seqL (keyL "bepa") (defL 0))
        ([] : List ((String → Option Nat) → Cmd (String → Option Nat))) 5
        ⟨bepaRec, 0, false, []⟩ 0).val = emptyRec := by
  constructor
  · unfold storeViaSet
    rw [run_setv_loggers [] (fun k hk => absurd hk (List.not_mem_nil k)) 5 _ _
      (by decide) rfl]
    dsimp only
    funext j
    by_cases h1 : j = "apa"
    · simp [keyL, lensE, abRec, bepaRec, h1]
    · by_cases h2 : j = "bepa" <;> simp [keyL, lensE, abRec, bepaRec, h1, h2]
  · unfold storeViaSet
    rw [run_setv_loggers [] (fun k hk => absurd hk (List.not_mem_nil k)) 5 _ _
      (by decide) rfl]
    dsimp only
    funext j
    by_cases h2 : j = "bepa" <;>
      simp [seqL, keyL, defL, isoE, lensE, bepaRec, emptyRec, h2]

/-- Claim C6: the partial `Lens.index` variant raises `'Out of bounds'` on
both read and write whenever the index is negative or at least the current
array length — never a silent no-op — and a store write through it leaves
the backing array unchanged, the failure propagating to the caller. -/
theorem claim6_index_partial_raises (A : Type) (i : Int) (xs : List A) (x : A)
    (h : i < 0 ∨ (xs.length : Int) ≤ i) :
    indexPGet i xs = Except.error "Out of bounds"
    ∧ indexPSet i xs x = Except.error "Out of bounds"
    ∧ indexStoreSet i x xs = (xs, some "Out of bounds") := by
  have hs : indexPSet i xs x = Except.error "Out of bounds" := by
    unfold indexPSet
    rw [if_pos h]
  refine ⟨?_, hs, ?_⟩
  · unfold indexPGet
    rw [if_pos h]
  · unfold indexStoreSet
    rw [hs]

/-- Witness for C6 on the spec's scenario `[0, 1, 2]`: reading index 4 and
writing index -1 both raise, and the write leaves the array unchanged. -/
theorem claim6_witness :
    indexPGet 4 ([0, 1, 2] : List Nat) = Except.error "Out of bounds"
    ∧ indexStoreSet (-1) (9 : Nat) [0, 1, 2] = ([0, 1, 2], some "Out of bounds") :=
  ⟨(claim6_index_partial_raises Nat 4 [0, 1, 2] 9 (by decide)).1,
   (claim6_index_partial_raises Nat (-1) [0, 1, 2] 9 (by decide)).2.2⟩

/-- Counterexample to claim C2 as stated: a failing transaction body does
propagate its failure to the caller, but the depth counter is NOT
decremented — `transact` has no `try`/`finally` around
`depth++; m(); depth--`, so after the fully-unwound failing call the depth
is 1, not 0. -/
theorem claim2_counterexample :
    (transactionE ([] : List (Nat → Cmd Nat)) 3
        (fun s => (s, some "boom", (0 : Nat))) ⟨0, 0, false, []⟩).2.1 = some "boom"
    ∧ (transactionE ([] : List (Nat → Cmd Nat)) 3
        (fun s => (s, some "boom", (0 : Nat))) ⟨0, 0, false, []⟩).1.depth = 1 := by
  decide

/-- Claim C2 (amended): if the body passed to `transaction` raises, the
failure propagates to the caller, but the depth counter is left
incremented — the decrement (and the notify call) on the failure path is
skipped — so `depth == 0` after a fully-unwound call is guaranteed only
when the body returned normally; in that case depth returns to 0 and the
body's result is propagated. -/
theorem claim2_amended (V A : Type) (L : List (V → Cmd V)) (fuel : Nat)
    (st : St V) (e : String) (a₀ : A) (g : St V → St V)
    (hg : ∀ s, (g s).depth = s.depth) (hL : SetOnlyL L) (hd : st.depth = 0) :
    transactionE L fuel (fun s => (s, some e, a₀)) st
        = ({ st with depth := st.depth + 1 }, some e, none)
    ∧ (transactionE L fuel (fun s => (g s, none, a₀)) st).1.depth = 0
    ∧ (transactionE L fuel (fun s => (g s, none, a₀)) st).2.1 = none
    ∧ (transactionE L fuel (fun s => (g s, none, a₀)) st).2.2 = some a₀ := by
  refine ⟨rfl, ?_, rfl, rfl⟩
  show (run L fuel Cmd.note _).depth = 0
  exact (run_note_passes L hL fuel _ (by simp [hg, hd])).1

/-- Witness for the amended C2: with an empty registry, a failing body
leaves depth at 1 with the failure propagated and no result, while a
normally-returning body brings depth back to 0. -/
theorem claim2_witness :
    transactionE ([] : List (Nat → Cmd Nat)) 4 (fun s => (s, some "x", (7 : Nat)))
        ⟨0, 0, false, []⟩ = (⟨0, 1, false, []⟩, some "x", none)
    ∧ (transactionE ([] : List (Nat → Cmd Nat)) 4 (fun s => (s, none, (7 : Nat)))
        ⟨0, 0, false, []⟩).1.depth = 0 := by
  have h := claim2_amended Nat Nat [] 4 ⟨0, 0, false, []⟩ "x" 7 (fun s => s)
    (fun s => rfl) (fun k hk => absurd hk (List.not_mem_nil k)) rfl
  exact ⟨h.1, h.2.1⟩

/-- Claim C8: every store derived from the same root — via `substore`,
`via`/zoom, `at`, `key`, or any chain of these — carries the root's
transaction function and its listen/subscribe function through unchanged
(the construction only replaces the get/set projection pair), so all
stores over one root share transact/listen identity. -/
theorem claim8_shared_transact_listen (M N R S T : Type)
    (p : StoreE M N R S) (q : StoreE M N R T) (h : Derives p q) :
    q.transact = p.transact ∧ q.listen = p.listen := by
  induction h with
  | refl p => exact ⟨rfl, rfl⟩
  | substore g s hpq ih => exact ih
  | via ℓ hpq ih => exact ih
  | atS k hpq ih => exact ih
  | keyS k hpq ih => exact ih

/-- Witness for C8: a chain root → `at "a"` → `substore` still carries the
root's transact and listen payloads. -/
theorem claim8_witness :
    (((⟨3, 4, fun r => r, fun _ s => s⟩ :
        StoreE Nat Nat (String → Nat) (String → Nat)).atS "a").substore
        (fun _ => (0 : Nat)) (fun r _ => r)).transact = 3
    ∧ (((⟨3, 4, fun r => r, fun _ s => s⟩ :
        StoreE Nat Nat (String → Nat) (String → Nat)).atS "a").substore
        (fun _ => (0 : Nat)) (fun r _ => r)).listen = 4 := by
  have h := claim8_shared_transact_listen Nat Nat (String → Nat) (String → Nat) Nat
    ⟨3, 4, fun r => r, fun _ s => s⟩
    (((⟨3, 4, fun r => r, fun _ s => s⟩ :
        StoreE Nat Nat (String → Nat) (String → Nat)).atS "a").substore
        (fun _ => (0 : Nat)) (fun r _ => r))
    (Derives.substore _ _ (Derives.atS "a" (Derives.refl _)))
  exact ⟨h.1, h.2⟩

/-- Claim C10: the Dannelib `at(ref, i)` array reference: a write with
`i ≥` the current length silently does nothing — it raises no failure
(the operation is total), and the engine state (array value, depth,
pending flag and trace) is completely unchanged, so no listener
notification is triggered; and a read with any out-of-range `i` (negative
or `≥` length) returns the absence marker rather than raising. -/
theorem claim10_dannelib_at (A : Type) (L : List (List A → Cmd (List A)))
    (fuel : Nat) (i : Int) (v : A) (st : St (List A))
    (hi : (st.val.length : Int) ≤ i) :
    atRefSet L fuel i v st = st
    ∧ (∀ j : Int, j < 0 ∨ (st.val.length : Int) ≤ j → atRefGet j st.val = none) := by
  constructor
  · unfold atRefSet atRefWrite
    rw [if_neg (by omega)]
  · intro j hj
    unfold atRefGet
    by_cases h0 : 0 ≤ j
    · rw [if_pos h0]
      apply get?_of_length_le
      omega
    · rw [if_neg h0]

/-- Witness for C10: on `[0, 1, 2]`, writing at index 5 leaves the whole
engine state untouched, and reading index -1 yields the absence marker. -/
theorem claim10_witness :
    atRefSet ([] : List (List Nat → Cmd (List Nat))) 5 5 99 ⟨[0, 1, 2], 0, false, []⟩
      = ⟨[0, 1, 2], 0, false, []⟩
    ∧ atRefGet (-1) ([0, 1, 2] : List Nat) = none := by
  have h := claim10_dannelib_at Nat [] 5 5 99 ⟨[0, 1, 2], 0, false, []⟩ (by decide)
  exact ⟨h.1, h.2 (-1) (by decide)⟩

end ReactiveLens
